import Mathlib

/-!
Verification development for the functional common information core of the
dit repository (file dit/multivariate/functional_common_information.py).

The search engine and the partition-function adapter are embedded from the
source.  The collaborators that the source imports from elsewhere in dit
(entropy, dual_total_correlation, close, insert_rvf, modify_outcomes,
normalize_rvs) are not part of the given sources; following the spec they
are treated as black boxes: the two information measures are abstract
function parameters, and the small utilities are modelled from the spec
(each such definition is marked in its doc comment).
-/

/-- Outcomes are fixed-length tuples of symbols; symbols are modelled as
natural numbers, so an outcome is a list of naturals. -/
abbrev Outcome := List Nat

/-- Injective encoding of an outcome into a natural number, used only to
linearize sets of outcomes into lists in a fixed (arbitrary) order, the way
iteration over a Python frozenset uses some fixed arbitrary order. -/
def encodeList : List Nat → Nat
  | [] => 0
  | a :: as => Nat.pair a (encodeList as) + 1

theorem encodeList_injective : Function.Injective encodeList := by
  intro a
  induction a with
  | nil =>
    intro b h
    cases b with
    | nil => rfl
    | cons y ys => simp [encodeList] at h
  | cons x xs ih =>
    intro b h
    cases b with
    | nil => simp [encodeList] at h
    | cons y ys =>
      simp only [encodeList, Nat.add_right_cancel_iff] at h
      obtain ⟨h1, h2⟩ := Nat.pair_eq_pair.mp h
      rw [h1, ih h2]

/-- Fixed total order on outcomes via the injective encoding. -/
def outcomeLe (a b : Outcome) : Prop := encodeList a ≤ encodeList b

instance : DecidableRel outcomeLe :=
  fun a b => inferInstanceAs (Decidable (encodeList a ≤ encodeList b))

instance : IsTrans Outcome outcomeLe :=
  ⟨fun _ _ _ h1 h2 => Nat.le_trans h1 h2⟩

instance : IsAntisymm Outcome outcomeLe :=
  ⟨fun _ _ h1 h2 => encodeList_injective (Nat.le_antisymm h1 h2)⟩

instance : IsTotal Outcome outcomeLe :=
  ⟨fun a b => Nat.le_total (encodeList a) (encodeList b)⟩

/-- Linearization of a multiset into its sorted list.  Insertion sort is
used (rather than merge sort) so that the function evaluates by kernel
reduction; for a total order the result agrees with any stable sort. -/
def sortedList (r : α → α → Prop) [DecidableRel r] [IsTrans α r]
    [IsAntisymm α r] [IsTotal α r] (s : Multiset α) : List α :=
  Quot.liftOn s (fun l => l.insertionSort r) fun _ _ h =>
    List.eq_of_perm_of_sorted
      ((List.perm_insertionSort r _).trans (h.trans (List.perm_insertionSort r _).symm))
      (List.sorted_insertionSort r _) (List.sorted_insertionSort r _)

theorem sortedList_coe (r : α → α → Prop) [DecidableRel r] [IsTrans α r]
    [IsAntisymm α r] [IsTotal α r] (s : Multiset α) :
    (sortedList r s : Multiset α) = s := by
  refine Quot.inductionOn s fun l => ?_
  exact Quot.sound (List.perm_insertionSort r l)

/-- Injective encoding of a finite set of outcomes, obtained by encoding the
sorted list of the encodings of its elements. -/
def blockEncode (b : Finset Outcome) : Nat :=
  encodeList (sortedList (· ≤ ·) (b.val.map encodeList))

theorem blockEncode_injective : Function.Injective blockEncode := by
  intro b₁ b₂ h
  have h₂ : sortedList (· ≤ ·) (b₁.val.map encodeList)
      = sortedList (· ≤ ·) (b₂.val.map encodeList) := encodeList_injective h
  have h₃ : b₁.val.map encodeList = b₂.val.map encodeList := by
    have e₁ := sortedList_coe (· ≤ ·) (b₁.val.map encodeList)
    have e₂ := sortedList_coe (· ≤ ·) (b₂.val.map encodeList)
    rw [← e₁, ← e₂, h₂]
  exact Finset.val_injective (Multiset.map_injective encodeList_injective h₃)

/-- Fixed total order on blocks (finite sets of outcomes) via the injective
encoding. -/
def blockLe (a b : Finset Outcome) : Prop := blockEncode a ≤ blockEncode b

instance : DecidableRel blockLe :=
  fun a b => inferInstanceAs (Decidable (blockEncode a ≤ blockEncode b))

instance : IsTrans (Finset Outcome) blockLe :=
  ⟨fun _ _ _ h1 h2 => Nat.le_trans h1 h2⟩

instance : IsAntisymm (Finset Outcome) blockLe :=
  ⟨fun _ _ h1 h2 => blockEncode_injective (Nat.le_antisymm h1 h2)⟩

instance : IsTotal (Finset Outcome) blockLe :=
  ⟨fun a b => Nat.le_total (blockEncode a) (blockEncode b)⟩

/-- A discrete distribution: a list of outcomes with their probability
masses.  This models the slice of the external Distribution interface the
core consumes: the outcome list and the pmf, transformed as a value type. -/
structure Distribution where
  outcomes : List Outcome
  pmf : List ℚ
deriving DecidableEq, Repr

/-- Number of random variables of the distribution, read off as the length
of an outcome tuple (dit : outcome_length). -/
def Distribution.outcome_length (d : Distribution) : Nat :=
  (d.outcomes.headD []).length

/-- Modelled from the spec: modify_outcomes produces a new distribution with
the outcomes remapped through a pure function, leaving the pmf unchanged. -/
def modify_outcomes (d : Distribution) (f : Outcome → Outcome) : Distribution :=
  ⟨d.outcomes.map f, d.pmf⟩

/-- Lookup of the block index of an outcome, with later blocks taking
priority.  This models the dict comprehension in add_partition, where an
outcome appearing in several blocks ends up mapped to the index of the last
block that contains it (later dict writes overwrite earlier ones). -/
def invert_aux (i : Nat) : List (List Outcome) → Outcome → Option Nat
  | [], _ => none
  | es :: rest, o =>
    match invert_aux (i + 1) rest o with
    | some j => some j
    | none => if o ∈ es then some i else none

/-- Block-index map of add_partition: outcome to the single-element label
tuple of the (last) block containing it, none when no block contains it
(a missing key in the Python dict). -/
def invert_part (part : List (List Outcome)) (o : Outcome) : Option Outcome :=
  (invert_aux 0 part o).map (fun i => [i])

/-- Modelled from the spec: insert_rvf appends, to each outcome, the value of
a pure function of that outcome, keeping the pmf; a lookup failure of the
function (a KeyError in the source) makes the whole call fail. -/
def insert_outcomes (f : Outcome → Option Outcome) : List Outcome → Option (List Outcome)
  | [] => some []
  | o :: os =>
    match f o, insert_outcomes f os with
    | some l, some rest => some ((o ++ l) :: rest)
    | _, _ => none

/-- Modelled from the spec: insert_rvf (see insert_outcomes). -/
def insert_rvf (d : Distribution) (f : Outcome → Option Outcome) : Option Distribution :=
  (insert_outcomes f d.outcomes).map (fun os => ⟨os, d.pmf⟩)

/-- Embedded from the source: add_partition builds the inverse block map of
the partition and adds the induced function of the joint distribution as an
extra trailing variable via insert_rvf. -/
def add_partition (dist : Distribution) (part : List (List Outcome)) : Option Distribution :=
  insert_rvf dist (invert_part part)

/-- Search states of the engine are partitions: finite sets of blocks, each
block a finite set of outcomes (Python: frozenset of frozensets).  Structural
equality of this type is the memoization equality of the source. -/
abbrev SPart := Finset (Finset Outcome)

/-- Fixed linearization of a partition into a list of blocks, standing in for
the arbitrary-but-fixed iteration order of a Python frozenset. -/
def blocksList (p : SPart) : List (Finset Outcome) := sortedList blockLe p.val

/-- Linearization of a partition into the list-of-lists form consumed by
add_partition. -/
def partToList (p : SPart) : List (List Outcome) :=
  (blocksList p).map (fun b => sortedList outcomeLe b.val)

/-- Unordered pairs of elements of a list, in the enumeration order of
itertools.combinations(l, 2). -/
def combinations2 : List α → List (α × α)
  | [] => []
  | x :: xs => xs.map (fun y => (x, y)) ++ combinations2 xs

/-- Partition obtained by merging two blocks of a partition into one, the
coarsening step of the lattice walk (the frozenset built at line 151 of the
source). -/
def mergeBlocks (p : SPart) (A B : Finset Outcome) : SPart :=
  insert (A ∪ B) ((p.erase A).erase B)

/-- Sort key of a candidate partition: the ascending list of its block sizes
(Python: sorted(map(len, p))). -/
def sizeKey (p : SPart) : List Nat := sortedList (· ≤ ·) (p.val.map Finset.card)

/-- Comparison of two lists of naturals as Python compares lists:
lexicographically, a shorter list preceding any extension of it. -/
def lexLeNat : List Nat → List Nat → Bool
  | [], _ => true
  | _ :: _, [] => false
  | a :: as, b :: bs =>
    if a < b then true else if b < a then false else lexLeNat as bs

/-- Ordering of candidate partitions by their size key, the comparison the
sort of the successor batch uses. -/
def partKeyLe (p q : SPart) : Prop := lexLeNat (sizeKey p) (sizeKey q) = true

instance : DecidableRel partKeyLe :=
  fun p q => inferInstanceAs (Decidable (lexLeNat (sizeKey p) (sizeKey q) = true))

/-- Modelled from the spec: close is the fixed-absolute-tolerance comparison
used for all numeric feasibility and optimality tests (a 1e-10-scale
tolerance per the spec). -/
def close (a b : ℚ) : Bool := |a - b| ≤ 1 / 10 ^ 10

/-- Successor generation from a popped feasible partition: all two-block
merges, minus the ones already checked, sorted ascending by size key
(lines 151 to 154 of the source). -/
def successorParts (p : SPart) (checked : Finset SPart) : List SPart :=
  List.insertionSort partKeyLe
    (((combinations2 (blocksList p)).map (fun pr => mergeBlocks p pr.1 pr.2)).filter
      (fun q => !decide (q ∈ checked)))

/-- Outcome of a run of the search loop: the popped-partition trace with the
final best candidate; keyError when materialization of a popped partition
fails (a KeyError in the source); out when the fuel is exhausted, proved
unreachable for the fuel the engine supplies. -/
inductive SearchResult
  | out
  | keyError
  | done (trace : List SPart) (best : ℚ × Distribution)
deriving DecidableEq

/-- Record of a popped partition onto the trace of the remaining run. -/
def SearchResult.consTrace (p : SPart) : SearchResult → SearchResult
  | .done tr b => .done (p :: tr) b
  | r => r

/-- Test for the fuel-exhaustion marker. -/
def SearchResult.isOut : SearchResult → Bool
  | .out => true
  | _ => false

/-- Termination weight of a single queue entry. -/
def partWeight (p : SPart) : Nat := (Nat.factorial p.card) ^ 2

/-- Termination weight of the whole work queue, strictly decreasing along
every iteration of the search loop. -/
def queueMeasure (q : List SPart) : Nat := (q.map partWeight).sum

/-- Embedded from the source, lines 130 to 155: one run of the main loop of
functional_markov_chain.  H and B are the two measure thunks of the source
(entropy of the functional variable, and dual total correlation of the
target variables given the conditioning set and the functional variable), ob
is the precomputed floor optimal_b.  Each iteration pops the front of the
queue, marks it checked, materializes it with add_partition, and when it is
feasible updates the best candidate, exits early when its entropy reaches
the floor, and otherwise pushes its unvisited successors, sorted by size
key, onto the front of the queue in reversed order (deque.extendleft). -/
def searchLoop (H B : Distribution → ℚ) (ob : ℚ) (dist : Distribution) :
    Nat → List SPart → Finset SPart → ℚ × Distribution → SearchResult
  | _, [], _, opt => .done [] opt
  | 0, _ :: _, _, _ => .out
  | fuel + 1, p :: rest, checked, opt =>
    match add_partition dist (partToList p) with
    | none => .keyError
    | some d =>
      if close (B d) 0 then
        let h := H d
        let opt2 := if h ≤ opt.1 then (h, d) else opt
        if close h ob then
          .done [p] opt2
        else
          (searchLoop H B ob dist fuel
            ((successorParts p (insert p checked)).reverse ++ rest)
            (insert p checked) opt2).consTrace p
      else
        (searchLoop H B ob dist fuel rest (insert p checked) opt).consTrace p

/-- Addressing mode of rvs and crvs (dit: rv_mode, indices or names, with
None meaning the default). -/
inductive RvMode
  | indices
  | names
deriving DecidableEq, Repr

/-- Shape of the external entropy collaborator: a distribution, the indices
of the variables measured, and the rv_mode. -/
abbrev EntropyFn := Distribution → List Nat → Option RvMode → ℚ

/-- Shape of the external dual_total_correlation collaborator: a
distribution, the target variable groups, the conditioning indices, and the
rv_mode. -/
abbrev DtcFn := Distribution → List (List Nat) → List Nat → Option RvMode → ℚ

/-- Modelled from the spec: normalize_rvs fills the defaults, rvs to all
declared variables and crvs to the empty list, and resolves the addressing
mode (passed through here). -/
def normalize_rvs (dist : Distribution) (rvs : Option (List (List Nat)))
    (crvs : Option (List Nat)) (rv_mode : Option RvMode) :
    List (List Nat) × List Nat × Option RvMode :=
  ⟨rvs.getD ((List.range dist.outcome_length).map (fun i => [i])),
   crvs.getD [], rv_mode⟩

/-- Finest partition of the outcome set: one singleton block per outcome
(line 122 of the source). -/
def finestPart (d : Distribution) : SPart :=
  (d.outcomes.map (fun o => ({o} : Finset Outcome))).toFinset

/-- Embedded from the source, lines 77 to 157: functional_markov_chain.
Normalizes rvs and crvs, canonicalizes outcomes, precomputes the floor
optimal_b, initializes the best candidate with the finest partition, and
runs the search loop; the supplied fuel is the termination weight of the
initial queue, proved sufficient.  Returns the full run record. -/
def fmcRun (E : EntropyFn) (Bf : DtcFn) (dist : Distribution)
    (rvs0 : Option (List (List Nat))) (crvs0 : Option (List Nat))
    (m0 : Option RvMode) : SearchResult :=
  let n := normalize_rvs dist rvs0 crvs0 m0
  let dist2 := modify_outcomes dist (fun x => x)
  let p0 := finestPart dist2
  let W : List Nat := [dist2.outcome_length]
  let H : Distribution → ℚ := fun d => E d W n.2.2
  let B : Distribution → ℚ := fun d => Bf d n.1 (n.2.1 ++ W) n.2.2
  let ob := Bf dist2 n.1 n.2.1 n.2.2
  match add_partition dist2 (partToList p0) with
  | none => .keyError
  | some dInit =>
    searchLoop H B ob dist2 (queueMeasure [p0]) [p0] ∅ (H dInit, dInit)

/-- Distribution returned by functional_markov_chain: the best candidate of
the run, none when the run fails (impossible for the supplied fuel). -/
def functional_markov_chain (E : EntropyFn) (Bf : DtcFn) (dist : Distribution)
    (rvs0 : Option (List (List Nat))) (crvs0 : Option (List Nat))
    (m0 : Option RvMode) : Option Distribution :=
  match fmcRun E Bf dist rvs0 crvs0 m0 with
  | .done _ b => some b.2
  | _ => none

/-- Embedded from the source, lines 159 to 192: functional_common_information
runs the search and returns the entropy of only the discovered functional
variable, the variable at index dist.outcome_length() of the augmented
distribution; the final entropy call passes no rv_mode. -/
def functional_common_information (E : EntropyFn) (Bf : DtcFn)
    (dist : Distribution) (rvs0 : Option (List (List Nat)))
    (crvs0 : Option (List Nat)) (m0 : Option RvMode) : Option ℚ :=
  (functional_markov_chain E Bf dist rvs0 crvs0 m0).map
    (fun d => E d [dist.outcome_length] none)

/-- Projection of the popped-partition trace out of a run record. -/
def SearchResult.traceOf : SearchResult → List SPart
  | .done tr _ => tr
  | _ => []

/-- Validity of a list partition for a distribution: every outcome of the
distribution lies in exactly one block. -/
def coversExactlyOnce (dist : Distribution) (part : List (List Outcome)) : Prop :=
  ∀ o ∈ dist.outcomes, part.countP (fun b => decide (o ∈ b)) = 1

instance (dist : Distribution) (part : List (List Outcome)) :
    Decidable (coversExactlyOnce dist part) := by
  unfold coversExactlyOnce; infer_instance

/-- Concrete two-outcome distribution used to instantiate theorems. -/
def dEx : Distribution := ⟨[[0], [1]], [1, 1]⟩

/-- Materialization of the finest partition of dEx. -/
def dExF : Distribution := ⟨[[0, 0], [1, 1]], [1, 1]⟩

/-- Concrete four-outcome distribution used to instantiate theorems. -/
def cexDist : Distribution := ⟨[[0], [1], [2], [3]], [1, 1, 1, 1]⟩

/-- Singleton block of the outcome [0]. -/
def cexA : Finset Outcome := {[0]}

/-- Singleton block of the outcome [1]. -/
def cexB : Finset Outcome := {[1]}

/-- Two-outcome block of the outcomes [2] and [3]. -/
def cexC : Finset Outcome := {[2], [3]}

/-- Concrete three-block partition with block sizes 1, 1 and 2. -/
def cexPart : SPart := {cexA, cexB, cexC}

/-- Partitions with nonempty pairwise disjoint blocks; every partition the
search reaches from the finest one has this shape. -/
def GoodPart (p : SPart) : Prop :=
  (∀ b ∈ p, b.Nonempty) ∧ ∀ b₁ ∈ p, ∀ b₂ ∈ p, b₁ ≠ b₂ → b₁ ∩ b₂ = ∅

/-- Invariant of the search loop state: the queue holds pairwise distinct,
unchecked, good partitions, with block counts nondecreasing from the front
of the queue to its back. -/
structure LoopInv (q : List SPart) (checked : Finset SPart) : Prop where
  nodup : q.Nodup
  fresh : ∀ p ∈ q, p ∉ checked
  mono : (q.map Finset.card).Sorted (· ≤ ·)
  good : ∀ p ∈ q, GoodPart p

/-! Properties of the partition-function adapter. -/

theorem invert_aux_eq_none {part : List (List Outcome)} {o : Outcome} (i : Nat) :
    invert_aux i part o = none ↔ ∀ b ∈ part, o ∉ b := by
  induction part generalizing i with
  | nil => simp [invert_aux]
  | cons es rest ih =>
    simp only [invert_aux]
    cases hrec : invert_aux (i + 1) rest o with
    | some j =>
      simp only [List.mem_cons]
      constructor
      · intro h; cases h
      · intro h
        have : invert_aux (i + 1) rest o = none := (ih (i + 1)).mpr
          (fun b hb => h b (Or.inr hb))
        rw [hrec] at this; cases this
    | none =>
      have hrest : ∀ b ∈ rest, o ∉ b := (ih (i + 1)).mp hrec
      by_cases hmem : o ∈ es
      · simp [hmem, hrest]
      · simp only [if_neg hmem, List.mem_cons]
        constructor
        · intro _ b hb
          rcases hb with hb | hb
          · rw [hb]; exact hmem
          · exact hrest b hb
        · intro _; trivial

theorem invert_aux_of_count_one {part : List (List Outcome)} {o : Outcome}
    (h : part.countP (fun b => decide (o ∈ b)) = 1) (i : Nat) :
    ∃ j, ∃ hj : j < part.length, invert_aux i part o = some (i + j) ∧
      o ∈ part.get ⟨j, hj⟩ ∧
      ∀ j', (hj' : j' < part.length) → o ∈ part.get ⟨j', hj'⟩ → j' = j := by
  induction part generalizing i with
  | nil => simp at h
  | cons es rest ih =>
    rw [List.countP_cons] at h
    by_cases hmem : o ∈ es
    · simp only [hmem, decide_eq_true_eq, if_true, decide_True] at h
      have hrest : rest.countP (fun b => decide (o ∈ b)) = 0 := by omega
      have hnone : invert_aux (i + 1) rest o = none := by
        rw [invert_aux_eq_none]
        intro b hb hob
        have : 0 < rest.countP (fun b => decide (o ∈ b)) :=
          List.countP_pos_iff.mpr ⟨b, hb, by simpa using hob⟩
        omega
      refine ⟨0, by simp, ?_, by simpa using hmem, ?_⟩
      · simp [invert_aux, hnone, hmem]
      · intro j' hj' hoj'
        cases j' with
        | zero => rfl
        | succ k =>
          exfalso
          have hk : k < rest.length := by simpa using hj'
          have : o ∈ rest.get ⟨k, hk⟩ := by simpa using hoj'
          have : 0 < rest.countP (fun b => decide (o ∈ b)) :=
            List.countP_pos_iff.mpr ⟨rest.get ⟨k, hk⟩, List.get_mem rest k hk, by simpa using this⟩
          omega
    · have hdec : decide (o ∈ es) = false := by simpa using hmem
      simp only [hdec, if_false, Bool.false_eq_true] at h
      have h1 : rest.countP (fun b => decide (o ∈ b)) = 1 := by omega
      obtain ⟨j, hj, heq, hoj, huniq⟩ := ih h1 (i + 1)
      refine ⟨j + 1, by simpa using hj, ?_, by simpa using hoj, ?_⟩
      · have : i + 1 + j = i + (j + 1) := by omega
        simp [invert_aux, heq, this]
      · intro j' hj' hoj'
        cases j' with
        | zero => exact absurd (by simpa using hoj') hmem
        | succ k =>
          have hk : k < rest.length := by simpa using hj'
          have := huniq k hk (by simpa using hoj')
          omega

theorem insert_outcomes_eq_map {f : Outcome → Option Outcome} {l : List Outcome}
    {g : Outcome → Outcome} (h : ∀ o ∈ l, f o = some (g o)) :
    insert_outcomes f l = some (l.map (fun o => o ++ g o)) := by
  induction l with
  | nil => rfl
  | cons o os ih =>
    have ho : f o = some (g o) := h o (List.mem_cons_self o os)
    have hos := ih (fun x hx => h x (List.mem_cons_of_mem o hx))
    simp [insert_outcomes, ho, hos]

theorem insert_outcomes_eq_none {f : Outcome → Option Outcome} {l : List Outcome}
    {o : Outcome} (hmem : o ∈ l) (h : f o = none) :
    insert_outcomes f l = none := by
  induction l with
  | nil => cases hmem
  | cons x xs ih =>
    rcases List.mem_cons.mp hmem with hx | hx
    · subst hx; simp [insert_outcomes, h]
    · simp only [insert_outcomes]
      rw [ih hx]
      cases f x <;> rfl

theorem insert_outcomes_isSome {f : Outcome → Option Outcome} {l : List Outcome}
    (h : ∀ o ∈ l, (f o).isSome = true) :
    (insert_outcomes f l).isSome = true := by
  induction l with
  | nil => simp [insert_outcomes]
  | cons x xs ih =>
    have hx := h x (List.mem_cons_self x xs)
    have hxs := ih (fun o ho => h o (List.mem_cons_of_mem x ho))
    simp only [insert_outcomes]
    cases hfx : f x with
    | none => rw [hfx] at hx; cases hx
    | some v =>
      cases hrec : insert_outcomes f xs with
      | none => rw [hrec] at hxs; cases hxs
      | some os => rfl


/-- C8: for a distribution and a valid partition of its outcomes (each
outcome in exactly one block), add_partition returns the input distribution
with one additional trailing variable whose value is a single-element label
of the outcome's block; outcomes of one block share the label and outcomes
of different blocks get different labels. -/
theorem add_partition_block_label (dist : Distribution) (part : List (List Outcome))
    (hv : coversExactlyOnce dist part) :
    ∃ lab : Outcome → Nat,
      add_partition dist part =
        some ⟨dist.outcomes.map (fun o => o ++ [lab o]), dist.pmf⟩ ∧
      ∀ o₁ ∈ dist.outcomes, ∀ o₂ ∈ dist.outcomes,
        ((∃ b ∈ part, o₁ ∈ b ∧ o₂ ∈ b) ↔ lab o₁ = lab o₂) := by
  refine ⟨fun o => (invert_aux 0 part o).getD 0, ?_, ?_⟩
  · have hf : ∀ o ∈ dist.outcomes,
        invert_part part o = some [(invert_aux 0 part o).getD 0] := by
      intro o ho
      obtain ⟨j, hj, heq, _, _⟩ := invert_aux_of_count_one (hv o ho) 0
      simp [invert_part, heq]
    unfold add_partition insert_rvf
    rw [insert_outcomes_eq_map (g := fun o => [(invert_aux 0 part o).getD 0]) hf]
    rfl
  · intro o₁ h₁ o₂ h₂
    obtain ⟨j₁, hj₁, heq₁, hin₁, hu₁⟩ := invert_aux_of_count_one (hv o₁ h₁) 0
    obtain ⟨j₂, hj₂, heq₂, hin₂, hu₂⟩ := invert_aux_of_count_one (hv o₂ h₂) 0
    simp only [heq₁, heq₂, Option.getD_some]
    constructor
    · rintro ⟨b, hb, hb₁, hb₂⟩
      obtain ⟨⟨k, hk⟩, hbk⟩ := List.mem_iff_get.mp hb
      have e₁ := hu₁ k hk (by rw [hbk]; exact hb₁)
      have e₂ := hu₂ k hk (by rw [hbk]; exact hb₂)
      omega
    · intro hEq
      have hj : j₁ = j₂ := by omega
      subst hj
      exact ⟨part.get ⟨j₁, hj₁⟩, List.get_mem part j₁ hj₁, hin₁, hin₂⟩

theorem add_partition_block_label_witness :
    ∃ lab : Outcome → Nat,
      add_partition ⟨[[0], [1]], [1, 1]⟩ [[[0]], [[1]]] =
        some ⟨([[0], [1]] : List Outcome).map (fun o => o ++ [lab o]), [1, 1]⟩ ∧
      ∀ o₁ ∈ ([[0], [1]] : List Outcome), ∀ o₂ ∈ ([[0], [1]] : List Outcome),
        ((∃ b ∈ ([[[0]], [[1]]] : List (List Outcome)), o₁ ∈ b ∧ o₂ ∈ b) ↔
          lab o₁ = lab o₂) :=
  add_partition_block_label ⟨[[0], [1]], [1, 1]⟩ [[[0]], [[1]]] (by decide)

/-- C7 counterexample: the partition with blocks [[0],[1]] and [[1]] covers
the outcome [1] twice, so it is not a valid partition; add_partition does
not reject it but silently returns a labeled distribution, in which the two
outcomes of the first block even receive different labels (the outcome [1]
is labeled by the last block containing it). -/
theorem add_partition_overlap_cex :
    ([[[0], [1]], [[1]]] : List (List Outcome)).countP
      (fun b => decide (([1] : Outcome) ∈ b)) = 2 ∧
    add_partition ⟨[[0], [1]], [1, 1]⟩ [[[0], [1]], [[1]]] =
      some ⟨[[0, 0], [1, 1]], [1, 1]⟩ := by
  with_unfolding_all exact of_decide_eq_true rfl

/-- C7 amended: add_partition validates nothing.  An outcome missing from
every block makes the call fail with the propagated lookup error, while a
partition covering every outcome at least once is accepted even when blocks
overlap, silently labeling each outcome with the last block containing it. -/
theorem add_partition_no_validation (dist : Distribution) (part : List (List Outcome)) :
    ((∃ o ∈ dist.outcomes, ∀ b ∈ part, o ∉ b) → add_partition dist part = none) ∧
    ((∀ o ∈ dist.outcomes, ∃ b ∈ part, o ∈ b) →
      ∃ d2, add_partition dist part = some d2) := by
  constructor
  · rintro ⟨o, ho, hnone⟩
    have h0 : invert_part part o = none := by
      simp [invert_part, (invert_aux_eq_none 0).mpr hnone]
    unfold add_partition insert_rvf
    rw [insert_outcomes_eq_none ho h0]
    rfl
  · intro hcov
    have hs : ∀ o ∈ dist.outcomes, (invert_part part o).isSome = true := by
      intro o ho
      obtain ⟨b, hb, hob⟩ := hcov o ho
      unfold invert_part
      cases haux : invert_aux 0 part o with
      | some j => rfl
      | none => exact absurd hob (((invert_aux_eq_none 0).mp haux) b hb)
    have hsome := insert_outcomes_isSome (f := invert_part part)
      (l := dist.outcomes) hs
    unfold add_partition insert_rvf
    cases hio : insert_outcomes (invert_part part) dist.outcomes with
    | none => rw [hio] at hsome; cases hsome
    | some os => exact ⟨⟨os, dist.pmf⟩, rfl⟩

theorem add_partition_no_validation_witness :
    add_partition ⟨[[2]], [1]⟩ [[[3]]] = none ∧
    ∃ d2, add_partition ⟨[[0], [1]], [1, 1]⟩ [[[0], [1]], [[1]]] = some d2 :=
  ⟨(add_partition_no_validation ⟨[[2]], [1]⟩ [[[3]]]).1 (by decide),
   (add_partition_no_validation ⟨[[0], [1]], [1, 1]⟩
      [[[0], [1]], [[1]]]).2 (by decide)⟩

/-! Properties of the search loop. -/

/-- C3: when a popped partition is feasible and its entropy is close to the
precomputed floor optimal_b, the loop stops at once: nothing further is
examined (the trace ends with this partition, whatever the rest of the
queue and the fuel), and the current best candidate, updated with this
partition when its entropy does not exceed the best, is returned. -/
theorem searchLoop_early_exit (H B : Distribution → ℚ) (ob : ℚ) (dist : Distribution)
    (fuel : Nat) (p : SPart) (rest : List SPart) (checked : Finset SPart)
    (opt : ℚ × Distribution) (d : Distribution)
    (hmat : add_partition dist (partToList p) = some d)
    (hfeas : close (B d) 0 = true)
    (hfloor : close (H d) ob = true) :
    searchLoop H B ob dist (fuel + 1) (p :: rest) checked opt =
      .done [p] (if H d ≤ opt.1 then (H d, d) else opt) := by
  simp [searchLoop, hmat, hfeas, hfloor]

theorem searchLoop_early_exit_witness :
    searchLoop (fun _ => 0) (fun _ => 0) 0 dEx 1 [finestPart dEx] ∅ (0, dEx) =
      .done [finestPart dEx] (if (0 : ℚ) ≤ 0 then ((0 : ℚ), dExF) else (0, dEx)) :=
  searchLoop_early_exit (fun _ => 0) (fun _ => 0) 0 dEx 0 (finestPart dEx) [] ∅
    (0, dEx) dExF (by with_unfolding_all rfl) (by with_unfolding_all rfl)
    (by with_unfolding_all rfl)

/-- C5: a popped partition that is infeasible contributes no successors: the
loop proceeds on exactly the remaining queue, with the partition only marked
checked and recorded on the trace (a terminal branch). -/
theorem searchLoop_infeasible_terminal (H B : Distribution → ℚ) (ob : ℚ)
    (dist : Distribution) (fuel : Nat) (p : SPart) (rest : List SPart)
    (checked : Finset SPart) (opt : ℚ × Distribution) (d : Distribution)
    (hmat : add_partition dist (partToList p) = some d)
    (hinfeas : close (B d) 0 = false) :
    searchLoop H B ob dist (fuel + 1) (p :: rest) checked opt =
      (searchLoop H B ob dist fuel rest (insert p checked) opt).consTrace p := by
  simp [searchLoop, hmat, hinfeas]

theorem searchLoop_infeasible_terminal_witness :
    searchLoop (fun _ => 0) (fun _ => 1) 0 dEx 1 [finestPart dEx] ∅ (0, dEx) =
      (searchLoop (fun _ => 0) (fun _ => 1) 0 dEx 0 [] (insert (finestPart dEx) ∅)
        (0, dEx)).consTrace (finestPart dEx) :=
  searchLoop_infeasible_terminal (fun _ => 0) (fun _ => 1) 0 dEx 0 (finestPart dEx)
    [] ∅ (0, dEx) dExF (by with_unfolding_all rfl) (by with_unfolding_all rfl)

/-- C9 amended: when a feasible popped partition does not reach the floor,
its not-yet-checked successors, sorted ascending by the multiset of block
sizes, are pushed onto the front of the queue in reversed order, the way
deque.extendleft prepends a batch element by element; the front of the
queue therefore holds the batch in descending key order, so the more
balanced merges are explored earlier within the batch, not later. -/
theorem searchLoop_expand_step (H B : Distribution → ℚ) (ob : ℚ)
    (dist : Distribution) (fuel : Nat) (p : SPart) (rest : List SPart)
    (checked : Finset SPart) (opt : ℚ × Distribution) (d : Distribution)
    (hmat : add_partition dist (partToList p) = some d)
    (hfeas : close (B d) 0 = true)
    (hfloor : close (H d) ob = false) :
    searchLoop H B ob dist (fuel + 1) (p :: rest) checked opt =
      (searchLoop H B ob dist fuel
        ((successorParts p (insert p checked)).reverse ++ rest)
        (insert p checked) (if H d ≤ opt.1 then (H d, d) else opt)).consTrace p := by
  simp [searchLoop, hmat, hfeas, hfloor]

theorem searchLoop_expand_step_witness :
    searchLoop (fun _ => 0) (fun _ => 0) 1 cexDist 3 [cexPart] ∅ (0, cexDist) =
      (searchLoop (fun _ => 0) (fun _ => 0) 1 cexDist 2
        ((successorParts cexPart (insert cexPart ∅)).reverse ++ [])
        (insert cexPart ∅)
        (if (0 : ℚ) ≤ 0 then ((0 : ℚ), ⟨[[0, 0], [1, 1], [2, 2], [3, 2]], [1, 1, 1, 1]⟩)
          else (0, cexDist))).consTrace cexPart :=
  searchLoop_expand_step (fun _ => 0) (fun _ => 0) 1 cexDist 2 cexPart [] ∅
    (0, cexDist) ⟨[[0, 0], [1, 1], [2, 2], [3, 2]], [1, 1, 1, 1]⟩
    (by with_unfolding_all rfl) (by with_unfolding_all rfl)
    (by with_unfolding_all rfl)

/-- C9 counterexample: from the concrete three-block partition cexPart (block
sizes 1, 1, 2) with every candidate feasible and no early exit, the batch of
successors holds two merges of key [1, 3] and one merge of key [2, 2]; the
claim would have the more balanced [2, 2] merge explored last within the
batch, but the run pops it immediately after cexPart (trace position 1),
before both [1, 3] batch-mates (trace positions 3 and 4). -/
theorem successor_order_cex :
    (searchLoop (fun _ => 0) (fun _ => 0) 1 cexDist 100 [cexPart] ∅
        (0, cexDist)).traceOf.indexOf (mergeBlocks cexPart cexA cexB) = 1 ∧
    (searchLoop (fun _ => 0) (fun _ => 0) 1 cexDist 100 [cexPart] ∅
        (0, cexDist)).traceOf.indexOf (mergeBlocks cexPart cexB cexC) = 3 ∧
    (searchLoop (fun _ => 0) (fun _ => 0) 1 cexDist 100 [cexPart] ∅
        (0, cexDist)).traceOf.indexOf (mergeBlocks cexPart cexA cexC) = 4 ∧
    mergeBlocks cexPart cexA cexB ∈ successorParts cexPart (insert cexPart ∅) ∧
    mergeBlocks cexPart cexB cexC ∈ successorParts cexPart (insert cexPart ∅) ∧
    mergeBlocks cexPart cexA cexC ∈ successorParts cexPart (insert cexPart ∅) ∧
    sizeKey (mergeBlocks cexPart cexA cexB) = [2, 2] ∧
    sizeKey (mergeBlocks cexPart cexB cexC) = [1, 3] ∧
    sizeKey (mergeBlocks cexPart cexA cexC) = [1, 3] ∧
    lexLeNat (sizeKey (mergeBlocks cexPart cexA cexC))
      (sizeKey (mergeBlocks cexPart cexA cexB)) = true ∧
    sizeKey (mergeBlocks cexPart cexA cexC) ≠ sizeKey (mergeBlocks cexPart cexA cexB) := by
  with_unfolding_all exact of_decide_eq_true rfl

theorem consTrace_eq_done {p : SPart} {r : SearchResult} {tr : List SPart}
    {b : ℚ × Distribution} :
    r.consTrace p = .done tr b ↔ ∃ tr2, r = .done tr2 b ∧ tr = p :: tr2 := by
  cases r with
  | out => simp [SearchResult.consTrace]
  | keyError => simp [SearchResult.consTrace]
  | done tr2 b2 =>
    simp only [SearchResult.consTrace, SearchResult.done.injEq]
    constructor
    · rintro ⟨h1, h2⟩
      exact ⟨tr2, by simp [h2], h1.symm⟩
    · rintro ⟨tr3, ⟨h1, h2⟩, h3⟩
      subst h1; subst h2; exact ⟨h3.symm, rfl⟩

theorem searchLoop_best_feasible (H B : Distribution → ℚ) (ob : ℚ)
    (dist : Distribution) :
    ∀ (fuel : Nat) (q : List SPart) (checked : Finset SPart)
      (opt : ℚ × Distribution) (tr : List SPart) (b : ℚ × Distribution),
      close (B opt.2) 0 = true →
      searchLoop H B ob dist fuel q checked opt = .done tr b →
      close (B b.2) 0 = true := by
  intro fuel
  induction fuel with
  | zero =>
    intro q checked opt tr b hopt hrun
    cases q with
    | nil =>
      simp only [searchLoop, SearchResult.done.injEq] at hrun
      rw [← hrun.2]; exact hopt
    | cons p rest => simp [searchLoop] at hrun
  | succ fuel ih =>
    intro q checked opt tr b hopt hrun
    cases q with
    | nil =>
      simp only [searchLoop, SearchResult.done.injEq] at hrun
      rw [← hrun.2]; exact hopt
    | cons p rest =>
      simp only [searchLoop] at hrun
      cases hmat : add_partition dist (partToList p) with
      | none => rw [hmat] at hrun; cases hrun
      | some d =>
        rw [hmat] at hrun
        by_cases hfeas : close (B d) 0 = true
        · simp only [hfeas, if_true] at hrun
          have hopt2 : close (B (if H d ≤ opt.1 then (H d, d) else opt).2) 0 = true := by
            by_cases hle : H d ≤ opt.1
            · simpa [hle] using hfeas
            · simpa [hle] using hopt
          by_cases hfloor : close (H d) ob = true
          · simp only [hfloor, if_true, SearchResult.done.injEq] at hrun
            rw [← hrun.2]; exact hopt2
          · simp only [hfloor, Bool.false_eq_true, if_false] at hrun
            obtain ⟨tr2, hrec, _⟩ := consTrace_eq_done.mp hrun
            exact ih _ _ _ _ _ hopt2 hrec
        · simp only [Bool.not_eq_true] at hfeas
          simp only [hfeas, Bool.false_eq_true, if_false] at hrun
          obtain ⟨tr2, hrec, _⟩ := consTrace_eq_done.mp hrun
          exact ih _ _ _ _ _ hopt hrec

/-- C2: the distribution carried by the best candidate of a completed run of
functional_markov_chain is feasible: its dual total correlation of the
target variables, conditioned on the conditioning variables together with
the added functional variable, tests close to zero.  The hypothesis states
that the materialized finest partition is feasible, the guarantee the spec
gives for the dual total correlation collaborator (conditioning on a
variable that determines the whole outcome yields zero), since the best
candidate is initialized with the finest partition and only ever replaced
by partitions that passed the feasibility test. -/
theorem fmc_result_feasible (E : EntropyFn) (Bf : DtcFn) (dist : Distribution)
    (rvs0 : Option (List (List Nat))) (crvs0 : Option (List Nat))
    (m0 : Option RvMode) (tr : List SPart) (b : ℚ × Distribution)
    (dInit : Distribution)
    (hinit : add_partition (modify_outcomes dist (fun x => x))
      (partToList (finestPart (modify_outcomes dist (fun x => x)))) = some dInit)
    (hfeas : close (Bf dInit (normalize_rvs dist rvs0 crvs0 m0).1
      ((normalize_rvs dist rvs0 crvs0 m0).2.1 ++
        [(modify_outcomes dist (fun x => x)).outcome_length])
      (normalize_rvs dist rvs0 crvs0 m0).2.2) 0 = true)
    (hrun : fmcRun E Bf dist rvs0 crvs0 m0 = .done tr b) :
    close (Bf b.2 (normalize_rvs dist rvs0 crvs0 m0).1
      ((normalize_rvs dist rvs0 crvs0 m0).2.1 ++
        [(modify_outcomes dist (fun x => x)).outcome_length])
      (normalize_rvs dist rvs0 crvs0 m0).2.2) 0 = true := by
  simp only [fmcRun] at hrun
  rw [hinit] at hrun
  exact searchLoop_best_feasible
    (fun d => E d [(modify_outcomes dist (fun x => x)).outcome_length]
      (normalize_rvs dist rvs0 crvs0 m0).2.2)
    (fun d => Bf d (normalize_rvs dist rvs0 crvs0 m0).1
      ((normalize_rvs dist rvs0 crvs0 m0).2.1 ++
        [(modify_outcomes dist (fun x => x)).outcome_length])
      (normalize_rvs dist rvs0 crvs0 m0).2.2)
    (Bf (modify_outcomes dist (fun x => x)) (normalize_rvs dist rvs0 crvs0 m0).1
      (normalize_rvs dist rvs0 crvs0 m0).2.1 (normalize_rvs dist rvs0 crvs0 m0).2.2)
    (modify_outcomes dist (fun x => x))
    (queueMeasure [finestPart (modify_outcomes dist (fun x => x))])
    [finestPart (modify_outcomes dist (fun x => x))] ∅
    (E dInit [(modify_outcomes dist (fun x => x)).outcome_length]
      (normalize_rvs dist rvs0 crvs0 m0).2.2, dInit) tr b hfeas hrun

theorem fmc_result_feasible_witness :
    close ((fun _ _ _ _ => (0 : ℚ)) dExF (normalize_rvs dEx none none none).1
      ((normalize_rvs dEx none none none).2.1 ++
        [(modify_outcomes dEx (fun x => x)).outcome_length])
      (normalize_rvs dEx none none none).2.2) 0 = true :=
  fmc_result_feasible (fun _ _ _ => 0) (fun _ _ _ _ => 0) dEx none none none
    [finestPart dEx] (0, dExF) dExF (by with_unfolding_all rfl)
    (by with_unfolding_all rfl) (by with_unfolding_all rfl)

/-! Termination of the search loop. -/

theorem consTrace_isOut (p : SPart) (r : SearchResult) :
    (r.consTrace p).isOut = r.isOut := by
  cases r <;> rfl

theorem partWeight_pos (p : SPart) : 1 ≤ partWeight p :=
  Nat.one_le_iff_ne_zero.mpr
    (pow_ne_zero 2 (Nat.factorial_ne_zero p.card))

theorem mem_blocksList {p : SPart} {b : Finset Outcome} :
    b ∈ blocksList p ↔ b ∈ p := by
  unfold blocksList
  rw [← Multiset.mem_coe, sortedList_coe]
  exact Iff.rfl

theorem blocksList_nodup (p : SPart) : (blocksList p).Nodup := by
  have h := sortedList_coe blockLe p.val
  have hn : (↑(blocksList p) : Multiset (Finset Outcome)).Nodup := by
    unfold blocksList; rw [h]; exact p.nodup
  exact Multiset.coe_nodup.mp hn

theorem blocksList_length (p : SPart) : (blocksList p).length = p.card := by
  have h := congrArg Multiset.card (sortedList_coe blockLe p.val)
  simpa using h

theorem combinations2_mem : ∀ {l : List α} {pr : α × α},
    pr ∈ combinations2 l → pr.1 ∈ l ∧ pr.2 ∈ l := by
  intro l
  induction l with
  | nil => intro pr h; cases h
  | cons x xs ih =>
    intro pr h
    simp only [combinations2, List.mem_append, List.mem_map] at h
    rcases h with ⟨y, hy, rfl⟩ | h
    · exact ⟨List.mem_cons_self x xs, List.mem_cons_of_mem x hy⟩
    · exact ⟨List.mem_cons_of_mem x (ih h).1, List.mem_cons_of_mem x (ih h).2⟩

theorem combinations2_ne : ∀ {l : List α}, l.Nodup → ∀ {pr : α × α},
    pr ∈ combinations2 l → pr.1 ≠ pr.2 := by
  intro l
  induction l with
  | nil => intro _ pr h; cases h
  | cons x xs ih =>
    intro hnd pr h
    simp only [combinations2, List.mem_append, List.mem_map] at h
    rcases h with ⟨y, hy, rfl⟩ | h
    · intro hEq
      have hxy : x = y := hEq
      exact (List.nodup_cons.mp hnd).1 (hxy ▸ hy)
    · exact ih (List.nodup_cons.mp hnd).2 h

theorem combinations2_length_lt : ∀ (l : List α), l ≠ [] →
    (combinations2 l).length + 1 ≤ l.length * l.length := by
  intro l
  induction l with
  | nil => intro h; exact absurd rfl h
  | cons x xs ih =>
    intro _
    simp only [combinations2, List.length_append, List.length_map, List.length_cons]
    cases xs with
    | nil => simp [combinations2]
    | cons y ys =>
      have hih := ih (by simp)
      set m := (y :: ys).length with hm
      have hq : (combinations2 (y :: ys)).length + 1 ≤ m * m := hih
      nlinarith

theorem mergeBlocks_card_le (p : SPart) {A B : Finset Outcome}
    (hA : A ∈ p) (hB : B ∈ p) (hne : A ≠ B) :
    (mergeBlocks p A B).card ≤ p.card - 1 := by
  have hBmem : B ∈ p.erase A := Finset.mem_erase.mpr ⟨Ne.symm hne, hB⟩
  have h1 : ((p.erase A).erase B).card = p.card - 1 - 1 := by
    rw [Finset.card_erase_of_mem hBmem, Finset.card_erase_of_mem hA]
  have h2 : 2 ≤ p.card := Finset.one_lt_card_iff.mpr ⟨A, B, hA, hB, hne⟩
  calc (mergeBlocks p A B).card ≤ ((p.erase A).erase B).card + 1 :=
        Finset.card_insert_le _ _
    _ ≤ p.card - 1 := by omega

theorem successorParts_weight_le (p : SPart) (chk : Finset SPart) :
    ∀ q ∈ successorParts p chk,
      partWeight q ≤ (Nat.factorial (p.card - 1)) ^ 2 := by
  intro q hq
  unfold successorParts at hq
  rw [List.mem_insertionSort] at hq
  obtain ⟨hq, -⟩ := List.mem_filter.mp hq
  obtain ⟨pr, hpr, rfl⟩ := List.mem_map.mp hq
  have hmem := combinations2_mem hpr
  have hne := combinations2_ne (blocksList_nodup p) hpr
  have hcard := mergeBlocks_card_le p (mem_blocksList.mp hmem.1)
    (mem_blocksList.mp hmem.2) hne
  exact Nat.pow_le_pow_left (Nat.factorial_le hcard) 2

theorem successorParts_length_le (p : SPart) (chk : Finset SPart) :
    (successorParts p chk).length ≤ (combinations2 (blocksList p)).length := by
  unfold successorParts
  rw [List.length_insertionSort]
  calc (List.filter _ (List.map _ (combinations2 (blocksList p)))).length
      ≤ (List.map (fun pr => mergeBlocks p pr.1 pr.2)
          (combinations2 (blocksList p))).length := List.length_filter_le _ _
    _ = (combinations2 (blocksList p)).length := List.length_map _ _

theorem successorParts_measure (p : SPart) (chk : Finset SPart) :
    queueMeasure (successorParts p chk) + 1 ≤ partWeight p := by
  rcases Nat.eq_zero_or_pos p.card with hc | hc
  · have hp : p = ∅ := Finset.card_eq_zero.mp hc
    subst hp
    have hbl : blocksList (∅ : SPart) = [] := by
      have hlen := blocksList_length (∅ : SPart)
      simp only [Finset.card_empty] at hlen
      exact List.length_eq_zero.mp hlen
    have hsp : successorParts (∅ : SPart) chk = [] := by
      unfold successorParts; rw [hbl]; rfl
    rw [hsp]
    simpa using partWeight_pos (∅ : SPart)
  · show ((successorParts p chk).map partWeight).sum + 1 ≤ Nat.factorial p.card ^ 2
    obtain ⟨m, hm⟩ : ∃ m, p.card = m + 1 := ⟨p.card - 1, by omega⟩
    set K := (Nat.factorial m) ^ 2 with hK
    have hK1 : 1 ≤ K := Nat.one_le_iff_ne_zero.mpr
      (pow_ne_zero 2 (Nat.factorial_ne_zero m))
    have hbound : ∀ x ∈ (successorParts p chk).map partWeight, x ≤ K := by
      intro x hx
      obtain ⟨q, hq, rfl⟩ := List.mem_map.mp hx
      have := successorParts_weight_le p chk q hq
      rwa [hm, Nat.add_sub_cancel] at this
    have hsum : ((successorParts p chk).map partWeight).sum ≤
        ((successorParts p chk).map partWeight).length * K := by
      have := List.sum_le_card_nsmul ((successorParts p chk).map partWeight) K hbound
      simpa [smul_eq_mul] using this
    have hlenmap : ((successorParts p chk).map partWeight).length =
        (successorParts p chk).length := List.length_map _ _
    rcases Nat.eq_zero_or_pos (combinations2 (blocksList p)).length with hL | hL
    · have hlen0 : (successorParts p chk).length = 0 := by
        have := successorParts_length_le p chk; omega
      have : ((successorParts p chk).map partWeight).sum = 0 := by
        rw [List.sum_eq_zero_iff]
        intro x hx
        obtain ⟨q, hq, rfl⟩ := List.mem_map.mp hx
        exact absurd hq (by simp [List.length_eq_zero.mp hlen0])
      rw [this]
      exact partWeight_pos p
    · have hne : blocksList p ≠ [] := by
        intro h; rw [h] at hL; simp [combinations2] at hL
      have hL2 : (combinations2 (blocksList p)).length + 1 ≤ p.card * p.card := by
        have := combinations2_length_lt (blocksList p) hne
        rwa [blocksList_length] at this
      have hstep : ((successorParts p chk).map partWeight).sum + 1 ≤
          p.card * p.card * K := by
        have h3 : ((successorParts p chk).map partWeight).sum + 1 ≤
            (combinations2 (blocksList p)).length * K + K := by
          have h4 := successorParts_length_le p chk
          have h5 : ((successorParts p chk).map partWeight).length * K ≤
              (combinations2 (blocksList p)).length * K :=
            Nat.mul_le_mul_right K (by omega)
          omega
        calc ((successorParts p chk).map partWeight).sum + 1
            ≤ (combinations2 (blocksList p)).length * K + K := h3
          _ = ((combinations2 (blocksList p)).length + 1) * K := by ring
          _ ≤ p.card * p.card * K := Nat.mul_le_mul_right K hL2
      have hfact : (Nat.factorial p.card) ^ 2 = p.card * p.card * K := by
        rw [hm, Nat.factorial_succ, hK]
        ring
      rw [hfact]
      exact hstep

theorem queueMeasure_append (l₁ l₂ : List SPart) :
    queueMeasure (l₁ ++ l₂) = queueMeasure l₁ + queueMeasure l₂ := by
  unfold queueMeasure
  rw [List.map_append, List.sum_append]

theorem queueMeasure_reverse (l : List SPart) :
    queueMeasure l.reverse = queueMeasure l := by
  unfold queueMeasure
  rw [List.map_reverse, List.sum_reverse]

theorem searchLoop_no_out (H B : Distribution → ℚ) (ob : ℚ) (dist : Distribution) :
    ∀ (fuel : Nat) (q : List SPart) (checked : Finset SPart)
      (opt : ℚ × Distribution), queueMeasure q ≤ fuel →
      (searchLoop H B ob dist fuel q checked opt).isOut = false := by
  intro fuel
  induction fuel with
  | zero =>
    intro q checked opt hq
    cases q with
    | nil => rfl
    | cons p rest =>
      exfalso
      have h1 := partWeight_pos p
      have : queueMeasure (p :: rest) = partWeight p + queueMeasure rest := by
        unfold queueMeasure; rw [List.map_cons, List.sum_cons]
      omega
  | succ fuel ih =>
    intro q checked opt hq
    cases q with
    | nil => rfl
    | cons p rest =>
      have hcons : queueMeasure (p :: rest) = partWeight p + queueMeasure rest := by
        unfold queueMeasure; rw [List.map_cons, List.sum_cons]
      simp only [searchLoop]
      cases hmat : add_partition dist (partToList p) with
      | none => rfl
      | some d =>
        by_cases hfeas : close (B d) 0 = true
        · simp only [hfeas, if_true]
          by_cases hfloor : close (H d) ob = true
          · simp only [hfloor, if_true]; rfl
          · simp only [hfloor, Bool.false_eq_true, if_false]
            rw [consTrace_isOut]
            apply ih
            have hsucc := successorParts_measure p (insert p checked)
            have := partWeight_pos p
            rw [queueMeasure_append, queueMeasure_reverse]
            omega
        · simp only [Bool.not_eq_true] at hfeas
          simp only [hfeas, Bool.false_eq_true, if_false]
          rw [consTrace_isOut]
          apply ih
          have := partWeight_pos p
          omega

/-- C4: the main loop of functional_markov_chain terminates on every input:
run with the fuel the engine supplies (the termination weight of the initial
queue), the loop never exhausts it, so every run ends with the queue empty,
with the early exit, or with a propagated materialization error, and in the
completed cases the best candidate found is returned. -/
theorem fmc_terminates (E : EntropyFn) (Bf : DtcFn) (dist : Distribution)
    (rvs0 : Option (List (List Nat))) (crvs0 : Option (List Nat))
    (m0 : Option RvMode) :
    (fmcRun E Bf dist rvs0 crvs0 m0).isOut = false := by
  simp only [fmcRun]
  cases hmat : add_partition (modify_outcomes dist (fun x => x))
      (partToList (finestPart (modify_outcomes dist (fun x => x)))) with
  | none => rfl
  | some dInit => exact searchLoop_no_out _ _ _ _ _ _ _ _ (Nat.le_refl _)

/-! The visited set and the stack discipline of the queue together prevent
any partition from being popped twice. -/

theorem union_not_mem_of_good {p : SPart} (hg : GoodPart p)
    {A B : Finset Outcome} (hA : A ∈ p) (hB : B ∈ p) (hne : A ≠ B) :
    A ∪ B ∉ p := by
  intro hU
  by_cases hUA : A ∪ B = A
  · have hBA : B ⊆ A := by
      intro x hx; exact hUA ▸ Finset.mem_union_right A hx
    have hint : B ∩ A = ∅ := hg.2 B hB A hA (Ne.symm hne)
    obtain ⟨x, hx⟩ := hg.1 B hB
    have : x ∈ B ∩ A := Finset.mem_inter.mpr ⟨hx, hBA hx⟩
    rw [hint] at this
    cases this
  · by_cases hUB : A ∪ B = B
    · have hAB : A ⊆ B := by
        intro x hx; exact hUB ▸ Finset.mem_union_left B hx
      have hint : A ∩ B = ∅ := hg.2 A hA B hB hne
      obtain ⟨x, hx⟩ := hg.1 A hA
      have : x ∈ A ∩ B := Finset.mem_inter.mpr ⟨hx, hAB hx⟩
      rw [hint] at this
      cases this
    · have hint : (A ∪ B) ∩ A = ∅ := hg.2 (A ∪ B) hU A hA hUA
      obtain ⟨x, hx⟩ := hg.1 A hA
      have : x ∈ (A ∪ B) ∩ A :=
        Finset.mem_inter.mpr ⟨Finset.mem_union_left B hx, hx⟩
      rw [hint] at this
      cases this

theorem mergeBlocks_card_eq {p : SPart} (hg : GoodPart p)
    {A B : Finset Outcome} (hA : A ∈ p) (hB : B ∈ p) (hne : A ≠ B) :
    (mergeBlocks p A B).card = p.card - 1 := by
  have hBmem : B ∈ p.erase A := Finset.mem_erase.mpr ⟨Ne.symm hne, hB⟩
  have hnotin : A ∪ B ∉ (p.erase A).erase B := by
    intro h
    exact union_not_mem_of_good hg hA hB hne
      (Finset.mem_of_mem_erase (Finset.mem_of_mem_erase h))
  have h2 : 2 ≤ p.card := Finset.one_lt_card_iff.mpr ⟨A, B, hA, hB, hne⟩
  unfold mergeBlocks
  rw [Finset.card_insert_of_not_mem hnotin, Finset.card_erase_of_mem hBmem,
    Finset.card_erase_of_mem hA]
  omega

theorem mergeBlocks_good {p : SPart} (hg : GoodPart p)
    {A B : Finset Outcome} (hA : A ∈ p) (hB : B ∈ p) (_hne : A ≠ B) :
    GoodPart (mergeBlocks p A B) := by
  constructor
  · intro b hb
    rcases Finset.mem_insert.mp hb with hb | hb
    · subst hb
      exact (hg.1 A hA).mono Finset.subset_union_left
    · exact hg.1 b (Finset.mem_of_mem_erase (Finset.mem_of_mem_erase hb))
  · intro b₁ h₁ b₂ h₂ hb12
    rcases Finset.mem_insert.mp h₁ with h₁ | h₁ <;>
      rcases Finset.mem_insert.mp h₂ with h₂ | h₂
    · exact absurd (h₁.trans h₂.symm) hb12
    · subst h₁
      have h₂p := Finset.mem_of_mem_erase (Finset.mem_of_mem_erase h₂)
      have hbA : b₂ ≠ A := (Finset.mem_erase.mp (Finset.mem_of_mem_erase h₂)).1
      have hbB : b₂ ≠ B := (Finset.mem_erase.mp h₂).1
      rw [Finset.union_inter_distrib_right,
        hg.2 A hA b₂ h₂p (Ne.symm hbA), hg.2 B hB b₂ h₂p (Ne.symm hbB)]
      simp
    · subst h₂
      have h₁p := Finset.mem_of_mem_erase (Finset.mem_of_mem_erase h₁)
      have hbA : b₁ ≠ A := (Finset.mem_erase.mp (Finset.mem_of_mem_erase h₁)).1
      have hbB : b₁ ≠ B := (Finset.mem_erase.mp h₁).1
      rw [Finset.inter_comm, Finset.union_inter_distrib_right,
        hg.2 A hA b₁ h₁p (Ne.symm hbA), hg.2 B hB b₁ h₁p (Ne.symm hbB)]
      simp
    · exact hg.2 b₁ (Finset.mem_of_mem_erase (Finset.mem_of_mem_erase h₁))
        b₂ (Finset.mem_of_mem_erase (Finset.mem_of_mem_erase h₂)) hb12

theorem block_sub_union_cases {p : SPart} (hg : GoodPart p)
    {A B C : Finset Outcome} (hA : A ∈ p) (hB : B ∈ p) (hC : C ∈ p)
    (hsub : C ⊆ A ∪ B) : C = A ∨ C = B := by
  by_contra hcon
  push_neg at hcon
  have hCA : C ∩ A = ∅ := hg.2 C hC A hA hcon.1
  have hCB : C ∩ B = ∅ := hg.2 C hC B hB hcon.2
  obtain ⟨x, hx⟩ := hg.1 C hC
  rcases Finset.mem_union.mp (hsub hx) with hxA | hxB
  · have : x ∈ C ∩ A := Finset.mem_inter.mpr ⟨hx, hxA⟩
    rw [hCA] at this; cases this
  · have : x ∈ C ∩ B := Finset.mem_inter.mpr ⟨hx, hxB⟩
    rw [hCB] at this; cases this

theorem mergeBlocks_pair_eq {p : SPart} (hg : GoodPart p)
    {A B C D : Finset Outcome} (hA : A ∈ p) (hB : B ∈ p) (hC : C ∈ p)
    (hD : D ∈ p) (hAB : A ≠ B) (hCD : C ≠ D)
    (heq : mergeBlocks p A B = mergeBlocks p C D) :
    (A = C ∧ B = D) ∨ (A = D ∧ B = C) := by
  have hUmem : A ∪ B ∈ mergeBlocks p C D := by
    rw [← heq]; exact Finset.mem_insert_self _ _
  have hUU : A ∪ B = C ∪ D := by
    rcases Finset.mem_insert.mp hUmem with h | h
    · exact h
    · exact absurd (Finset.mem_of_mem_erase (Finset.mem_of_mem_erase h))
        (union_not_mem_of_good hg hA hB hAB)
  have hCc : C = A ∨ C = B :=
    block_sub_union_cases hg hA hB hC (hUU ▸ Finset.subset_union_left)
  have hDc : D = A ∨ D = B :=
    block_sub_union_cases hg hA hB hD (hUU ▸ Finset.subset_union_right)
  rcases hCc with hCc | hCc <;> rcases hDc with hDc | hDc
  · exact absurd (hCc.trans hDc.symm) hCD
  · exact Or.inl ⟨hCc.symm, hDc.symm⟩
  · exact Or.inr ⟨hDc.symm, hCc.symm⟩
  · exact absurd (hCc.trans hDc.symm) hCD

theorem combinations2_no_swap : ∀ {l : List α}, l.Nodup → ∀ {a b : α},
    (a, b) ∈ combinations2 l → (b, a) ∈ combinations2 l → False := by
  intro l
  induction l with
  | nil => intro _ a b h; cases h
  | cons x xs ih =>
    intro hnd a b hab hba
    have hx : x ∉ xs := (List.nodup_cons.mp hnd).1
    simp only [combinations2, List.mem_append, List.mem_map, Prod.mk.injEq] at hab hba
    rcases hab with ⟨y, hy, hy1, hy2⟩ | hab <;>
      rcases hba with ⟨z, hz, hz1, hz2⟩ | hba
    · subst hy1; subst hy2; subst hz2
      exact hx (hz1 ▸ hy)
    · subst hy1; subst hy2
      exact hx (combinations2_mem hba).2
    · subst hz1; subst hz2
      exact hx (combinations2_mem hab).2
    · exact ih (List.nodup_cons.mp hnd).2 hab hba

theorem combinations2_nodup : ∀ {l : List α}, l.Nodup →
    (combinations2 l).Nodup := by
  intro l
  induction l with
  | nil => intro _; exact List.nodup_nil
  | cons x xs ih =>
    intro hnd
    have hx : x ∉ xs := (List.nodup_cons.mp hnd).1
    have hxs : xs.Nodup := (List.nodup_cons.mp hnd).2
    simp only [combinations2]
    rw [List.nodup_append]
    refine ⟨?_, ih hxs, ?_⟩
    · exact hxs.map (fun a b h => (Prod.mk.injEq _ _ _ _).mp h |>.2)
    · intro pr hpr hpr2
      obtain ⟨y, _, rfl⟩ := List.mem_map.mp hpr
      exact hx (combinations2_mem hpr2).1

theorem mem_successorParts {p : SPart} {chk : Finset SPart} {q : SPart}
    (hq : q ∈ successorParts p chk) :
    (∃ A B, A ∈ p ∧ B ∈ p ∧ A ≠ B ∧ q = mergeBlocks p A B) ∧ q ∉ chk := by
  unfold successorParts at hq
  rw [List.mem_insertionSort] at hq
  obtain ⟨hq, hflt⟩ := List.mem_filter.mp hq
  obtain ⟨pr, hpr, rfl⟩ := List.mem_map.mp hq
  have hmem := combinations2_mem hpr
  have hne := combinations2_ne (blocksList_nodup p) hpr
  refine ⟨⟨pr.1, pr.2, mem_blocksList.mp hmem.1, mem_blocksList.mp hmem.2,
    hne, rfl⟩, ?_⟩
  simpa using hflt

theorem successorParts_nodup {p : SPart} (hg : GoodPart p)
    (chk : Finset SPart) : (successorParts p chk).Nodup := by
  unfold successorParts
  apply (List.perm_insertionSort partKeyLe _).symm.nodup
  apply List.Nodup.filter
  apply List.Nodup.map_on ?_ (combinations2_nodup (blocksList_nodup p))
  intro pr hpr qr hqr hfeq
  have hprm := combinations2_mem hpr
  have hprn := combinations2_ne (blocksList_nodup p) hpr
  have hqrm := combinations2_mem hqr
  have hqrn := combinations2_ne (blocksList_nodup p) hqr
  rcases mergeBlocks_pair_eq hg (mem_blocksList.mp hprm.1)
      (mem_blocksList.mp hprm.2) (mem_blocksList.mp hqrm.1)
      (mem_blocksList.mp hqrm.2) hprn hqrn
      (by rw [hfeq]) with ⟨h1, h2⟩ | ⟨h1, h2⟩
  · calc pr = (pr.1, pr.2) := rfl
      _ = (qr.1, qr.2) := by rw [← h1, ← h2]
      _ = qr := rfl
  · exfalso
    have hpr2 : (qr.2, qr.1) ∈ combinations2 (blocksList p) := by
      have : pr = (qr.2, qr.1) := by
        calc pr = (pr.1, pr.2) := rfl
          _ = (qr.2, qr.1) := by rw [h1, h2]
      exact this ▸ hpr
    exact combinations2_no_swap (blocksList_nodup p) (by
      have : qr = (qr.1, qr.2) := rfl
      exact this ▸ hqr) hpr2

theorem pairwise_le_of_all_eq {l : List Nat} {k : Nat} (h : ∀ x ∈ l, x = k) :
    l.Pairwise (· ≤ ·) := by
  induction l with
  | nil => exact List.Pairwise.nil
  | cons x xs ih =>
    refine List.Pairwise.cons ?_ (ih fun y hy => h y (List.mem_cons_of_mem x hy))
    intro y hy
    rw [h x (List.mem_cons_self x xs), h y (List.mem_cons_of_mem x hy)]

theorem loopInv_tail {p : SPart} {rest : List SPart} {chk : Finset SPart}
    (hinv : LoopInv (p :: rest) chk) : LoopInv rest (insert p chk) := by
  have hnd := List.nodup_cons.mp hinv.nodup
  refine ⟨hnd.2, ?_, ?_, fun q hq => hinv.good q (List.mem_cons_of_mem p hq)⟩
  · intro q hq
    rw [Finset.mem_insert]
    push_neg
    constructor
    · intro hqp; exact hnd.1 (hqp ▸ hq)
    · exact hinv.fresh q (List.mem_cons_of_mem p hq)
  · have := hinv.mono
    rw [List.map_cons, List.sorted_cons] at this
    exact this.2

theorem loopInv_expand {p : SPart} {rest : List SPart} {chk : Finset SPart}
    (hinv : LoopInv (p :: rest) chk) :
    LoopInv ((successorParts p (insert p chk)).reverse ++ rest) (insert p chk) := by
  have hg : GoodPart p := hinv.good p (List.mem_cons_self p rest)
  have hnd := List.nodup_cons.mp hinv.nodup
  have hmono := hinv.mono
  rw [List.map_cons, List.sorted_cons] at hmono
  have hcards : ∀ q ∈ successorParts p (insert p chk), q.card = p.card - 1 := by
    intro q hq
    obtain ⟨⟨A, B, hA, hB, hAB, rfl⟩, -⟩ := mem_successorParts hq
    exact mergeBlocks_card_eq hg hA hB hAB
  have hcard2 : ∀ q ∈ successorParts p (insert p chk), 2 ≤ p.card := by
    intro q hq
    obtain ⟨⟨A, B, hA, hB, hAB, -⟩, -⟩ := mem_successorParts hq
    exact Finset.one_lt_card_iff.mpr ⟨A, B, hA, hB, hAB⟩
  have hrest_card : ∀ x ∈ rest.map Finset.card, p.card ≤ x := hmono.1
  constructor
  · rw [List.nodup_append]
    refine ⟨List.nodup_reverse.mpr (successorParts_nodup hg _), hnd.2, ?_⟩
    intro q hq hq2
    rw [List.mem_reverse] at hq
    have h1 := hcards q hq
    have h2 := hcard2 q hq
    have h3 : p.card ≤ q.card :=
      hrest_card q.card (List.mem_map_of_mem Finset.card hq2)
    omega
  · intro q hq
    rcases List.mem_append.mp hq with hq | hq
    · rw [List.mem_reverse] at hq
      exact (mem_successorParts hq).2
    · rw [Finset.mem_insert]
      push_neg
      exact ⟨fun hqp => hnd.1 (hqp ▸ hq),
        hinv.fresh q (List.mem_cons_of_mem p hq)⟩
  · rw [List.map_append]
    refine List.pairwise_append.mpr ⟨?_, hmono.2, ?_⟩
    · apply pairwise_le_of_all_eq (k := p.card - 1)
      intro x hx
      obtain ⟨q, hq, rfl⟩ := List.mem_map.mp hx
      rw [List.mem_reverse] at hq
      exact hcards q hq
    · intro x hx y hy
      obtain ⟨q, hq, rfl⟩ := List.mem_map.mp hx
      rw [List.mem_reverse] at hq
      have h1 := hcards q hq
      have h3 := hrest_card y hy
      omega
  · intro q hq
    rcases List.mem_append.mp hq with hq | hq
    · rw [List.mem_reverse] at hq
      obtain ⟨⟨A, B, hA, hB, hAB, rfl⟩, -⟩ := mem_successorParts hq
      exact mergeBlocks_good hg hA hB hAB
    · exact hinv.good q (List.mem_cons_of_mem p hq)

theorem searchLoop_trace_nodup (H B : Distribution → ℚ) (ob : ℚ)
    (dist : Distribution) :
    ∀ (fuel : Nat) (q : List SPart) (checked : Finset SPart)
      (opt : ℚ × Distribution) (tr : List SPart) (b : ℚ × Distribution),
      LoopInv q checked →
      searchLoop H B ob dist fuel q checked opt = .done tr b →
      tr.Nodup ∧ ∀ x ∈ tr, x ∉ checked := by
  intro fuel
  induction fuel with
  | zero =>
    intro q checked opt tr b hinv hrun
    cases q with
    | nil =>
      simp only [searchLoop, SearchResult.done.injEq] at hrun
      rw [← hrun.1]
      exact ⟨List.nodup_nil, by simp⟩
    | cons p rest => simp [searchLoop] at hrun
  | succ fuel ih =>
    intro q checked opt tr b hinv hrun
    cases q with
    | nil =>
      simp only [searchLoop, SearchResult.done.injEq] at hrun
      rw [← hrun.1]
      exact ⟨List.nodup_nil, by simp⟩
    | cons p rest =>
      have hpfresh : p ∉ checked := hinv.fresh p (List.mem_cons_self p rest)
      simp only [searchLoop] at hrun
      cases hmat : add_partition dist (partToList p) with
      | none => rw [hmat] at hrun; cases hrun
      | some d =>
        rw [hmat] at hrun
        by_cases hfeas : close (B d) 0 = true
        · simp only [hfeas, if_true] at hrun
          by_cases hfloor : close (H d) ob = true
          · simp only [hfloor, if_true, SearchResult.done.injEq] at hrun
            rw [← hrun.1]
            refine ⟨List.nodup_singleton p, ?_⟩
            intro x hx
            rw [List.mem_singleton.mp hx]
            exact hpfresh
          · simp only [hfloor, Bool.false_eq_true, if_false] at hrun
            obtain ⟨tr2, hrec, htr⟩ := consTrace_eq_done.mp hrun
            obtain ⟨hnd2, hfr2⟩ := ih _ _ _ _ _ (loopInv_expand hinv) hrec
            subst htr
            constructor
            · rw [List.nodup_cons]
              refine ⟨?_, hnd2⟩
              intro hp2
              exact hfr2 p hp2 (Finset.mem_insert_self p checked)
            · intro x hx
              rcases List.mem_cons.mp hx with hx | hx
              · exact hx ▸ hpfresh
              · intro hxc
                exact hfr2 x hx (Finset.mem_insert_of_mem hxc)
        · simp only [Bool.not_eq_true] at hfeas
          simp only [hfeas, Bool.false_eq_true, if_false] at hrun
          obtain ⟨tr2, hrec, htr⟩ := consTrace_eq_done.mp hrun
          obtain ⟨hnd2, hfr2⟩ := ih _ _ _ _ _ (loopInv_tail hinv) hrec
          subst htr
          constructor
          · rw [List.nodup_cons]
            refine ⟨?_, hnd2⟩
            intro hp2
            exact hfr2 p hp2 (Finset.mem_insert_self p checked)
          · intro x hx
            rcases List.mem_cons.mp hx with hx | hx
            · exact hx ▸ hpfresh
            · intro hxc
              exact hfr2 x hx (Finset.mem_insert_of_mem hxc)

theorem finest_good (d : Distribution) : GoodPart (finestPart d) := by
  constructor
  · intro b hb
    unfold finestPart at hb
    rw [List.mem_toFinset] at hb
    obtain ⟨o, -, rfl⟩ := List.mem_map.mp hb
    exact Finset.singleton_nonempty o
  · intro b₁ h₁ b₂ h₂ hne
    unfold finestPart at h₁ h₂
    rw [List.mem_toFinset] at h₁ h₂
    obtain ⟨o₁, -, rfl⟩ := List.mem_map.mp h₁
    obtain ⟨o₂, -, rfl⟩ := List.mem_map.mp h₂
    apply Finset.singleton_inter_of_not_mem
    rw [Finset.mem_singleton]
    intro h
    exact hne (h ▸ rfl)

theorem loopInv_init (p0 : SPart) (hg : GoodPart p0) : LoopInv [p0] ∅ := by
  refine ⟨List.nodup_singleton p0, ?_, ?_, ?_⟩
  · intro q hq
    rw [List.mem_singleton.mp hq]
    exact Finset.not_mem_empty p0
  · exact List.sorted_singleton _
  · intro q hq
    rw [List.mem_singleton.mp hq]
    exact hg

/-- C6: in every completed run of functional_markov_chain, no partition is
popped from the queue and evaluated more than once: the popped-partition
trace has no duplicates.  The visited set blocks re-insertion of a checked
partition, and the stack discipline of the queue (pops and batch pushes both
at the front) keeps every pending partition ahead of any partition that
could regenerate it, so a queued partition is never queued a second time. -/
theorem fmc_trace_nodup (E : EntropyFn) (Bf : DtcFn) (dist : Distribution)
    (rvs0 : Option (List (List Nat))) (crvs0 : Option (List Nat))
    (m0 : Option RvMode) (tr : List SPart) (b : ℚ × Distribution)
    (hrun : fmcRun E Bf dist rvs0 crvs0 m0 = .done tr b) : tr.Nodup := by
  simp only [fmcRun] at hrun
  cases hmat : add_partition (modify_outcomes dist (fun x => x))
      (partToList (finestPart (modify_outcomes dist (fun x => x)))) with
  | none => rw [hmat] at hrun; cases hrun
  | some dInit =>
    rw [hmat] at hrun
    exact (searchLoop_trace_nodup
      (fun d => E d [(modify_outcomes dist (fun x => x)).outcome_length]
        (normalize_rvs dist rvs0 crvs0 m0).2.2)
      (fun d => Bf d (normalize_rvs dist rvs0 crvs0 m0).1
        ((normalize_rvs dist rvs0 crvs0 m0).2.1 ++
          [(modify_outcomes dist (fun x => x)).outcome_length])
        (normalize_rvs dist rvs0 crvs0 m0).2.2)
      (Bf (modify_outcomes dist (fun x => x)) (normalize_rvs dist rvs0 crvs0 m0).1
        (normalize_rvs dist rvs0 crvs0 m0).2.1 (normalize_rvs dist rvs0 crvs0 m0).2.2)
      (modify_outcomes dist (fun x => x))
      (queueMeasure [finestPart (modify_outcomes dist (fun x => x))])
      [finestPart (modify_outcomes dist (fun x => x))] ∅
      (E dInit [(modify_outcomes dist (fun x => x)).outcome_length]
        (normalize_rvs dist rvs0 crvs0 m0).2.2, dInit) tr b
      (loopInv_init _ (finest_good (modify_outcomes dist (fun x => x)))) hrun).1

theorem fmc_trace_nodup_witness : List.Nodup [finestPart dEx] :=
  fmc_trace_nodup (fun _ _ _ => 0) (fun _ _ _ _ => 0) dEx none none none
    [finestPart dEx] (0, dExF) (by with_unfolding_all rfl)

/-! The thin orchestrator. -/

/-- C10: functional_common_information returns the entropy of the single
variable at index dist.outcome_length(), the outcome length of the original
distribution, computed on the distribution the search returned; the final
entropy call passes the default rv_mode (none), even though the caller's
rv_mode argument was forwarded to the search that produced the
distribution. -/
theorem fci_final_entropy (E : EntropyFn) (Bf : DtcFn) (dist : Distribution)
    (rvs0 : Option (List (List Nat))) (crvs0 : Option (List Nat))
    (m0 : Option RvMode) (d : Distribution)
    (hrun : functional_markov_chain E Bf dist rvs0 crvs0 m0 = some d) :
    functional_common_information E Bf dist rvs0 crvs0 m0 =
      some (E d [dist.outcome_length] none) := by
  unfold functional_common_information
  rw [hrun]
  rfl

theorem fci_final_entropy_witness :
    functional_common_information (fun _d _W m => if m = none then 7 else 9)
      (fun _ _ _ _ => 0) dEx none none (some RvMode.indices) =
      some ((fun (_d : Distribution) (_W : List Nat) (m : Option RvMode) =>
        if m = none then (7 : ℚ) else 9)
        ⟨[[0, 0], [1, 0]], [1, 1]⟩ [dEx.outcome_length] none) :=
  fci_final_entropy (fun _d _W m => if m = none then 7 else 9) (fun _ _ _ _ => 0)
    dEx none none (some RvMode.indices) ⟨[[0, 0], [1, 0]], [1, 1]⟩
    (by with_unfolding_all rfl)
